import Mathlib

/-!
Verification of the core quantity algebra and filesystem index of the
cooklang-chef repository (crates `cooklang` / `quantity.rs` and
`cooklang-fs` / `lib.rs`), as a shallow embedding in Lean.

Modelling conventions:
* Rust `f64` numbers are modelled as rationals (`ℚ`) with exact arithmetic.
  The claims verified here concern the algebraic structure of the
  operations, not floating-point rounding.
* Paths (`camino::Utf8Path`) are modelled as strings, with explicit helper
  functions mirroring camino semantics (`fileNameOfPath`, `withExtension`,
  ...). Paths are kept in normalized form: no empty or `.` components;
  path equality is string equality.
* Fallible Rust functions are modelled with `Option`/`Except`; a Rust panic
  (`unwrap`, `expect`, slice index overflow) is modelled as `Option.none`.
* The filesystem is modelled explicitly: a file-existence predicate for the
  direct probe (`SimFs`), a materialized walk sequence for the shared index
  cursor, and a directory tree (`FsTree`) for traversal orderings.
* External collaborators of the crates (the `Converter`, the parsed-recipe
  type, the AST quantity node) are not part of the sources; their narrow
  contracts are modelled from the spec where indicated.
-/

namespace Cooklang

/-! ### String helpers

Structural-recursion re-implementations of the string primitives the
sources use (`str::split`, `str::starts_with`, byte-order comparison, ...).
They agree with the core `String` functions on their shared domain; the
core versions are position-based and are avoided only so that concrete
inputs evaluate inside the kernel. -/

/-- `String.splitOn` for a one-character separator (splitting `"a.b"` at
`'.'` gives `["a", "b"]`; the empty string gives `[""]`). -/
def splitCharAux (c : Char) (acc : List Char) : List Char → List (List Char)
  | [] => [acc.reverse]
  | x :: xs =>
      if x = c then acc.reverse :: splitCharAux c [] xs
      else splitCharAux c (x :: acc) xs

def splitChar (c : Char) (s : String) : List String :=
  (splitCharAux c [] s.data).map String.mk

def startsWithChar (c : Char) (s : String) : Bool :=
  s.data.head? == some c

def endsWithChar (c : Char) (s : String) : Bool :=
  s.data.getLast? == some c

/-- `str::is_empty`. -/
def strIsEmpty (s : String) : Bool :=
  s.data.isEmpty

/-- Drop the first character (`&s[1..]` after a matched one-byte sign). -/
def strTail (s : String) : String :=
  ⟨s.data.tail⟩

/-- Lexicographic `≤` on character lists: Rust's byte-wise string order
(UTF-8 byte order coincides with code-point order). -/
def charListLe : List Char → List Char → Bool
  | [], _ => true
  | _ :: _, [] => false
  | a :: as, b :: bs => if a = b then charListLe as bs else decide (a < b)

/-- Rust's `Ord::le` on strings. -/
def strLeB (a b : String) : Bool :=
  charListLe a.data b.data

/-! ### Path model (camino `Utf8Path` semantics on strings) -/

/-- Components of a path string: the `/`-separated pieces, with empty and
`.` pieces dropped (camino normalizes these away for `file_name`,
`parent`, ...). -/
def pathComps (p : String) : List String :=
  (splitChar '/' p).filter (fun c => c != "" && c != ".")

/-- `camino::Utf8Path::file_name`: the last path component, unless the path
terminates in `..` or has no components. -/
def fileNameOfPath (p : String) : Option String :=
  match (pathComps p).getLast? with
  | none => none
  | some c => if c = ".." then none else some c

/-- Rust `file_stem` semantics on a file name: the whole name when it has no
`.` or is a dot-file like `.foo`; otherwise the name up to its last `.`. -/
def fileStemOfName (n : String) : String :=
  match splitChar '.' n with
  | [] => n
  | [_] => n
  | ["", _] => n
  | ps => String.intercalate "." ps.dropLast

/-- Rust `extension` semantics on a file name. -/
def extensionOfName (n : String) : Option String :=
  match splitChar '.' n with
  | [] => none
  | [_] => none
  | ["", _] => none
  | ps => ps.getLast?

def fileStemOfPath (p : String) : Option String :=
  (fileNameOfPath p).map fileStemOfName

def extensionOfPath (p : String) : Option String :=
  (fileNameOfPath p).bind extensionOfName

/-- Rebuild a path string from components. -/
def joinComps (isAbs : Bool) (cs : List String) : String :=
  (if isAbs then "/" else "") ++ String.intercalate "/" cs

/-- `camino::Utf8Path::parent` (`none` for a path with no components). -/
def parentPath (p : String) : Option String :=
  match pathComps p with
  | [] => none
  | cs => some (joinComps (startsWithChar '/' p) cs.dropLast)

/-- `camino::Utf8Path::join`: appending a relative path; an absolute second
argument replaces the base. -/
def joinPath (base p : String) : String :=
  if startsWithChar '/' p then p
  else if base = "" then p
  else if endsWithChar '/' base then base ++ p
  else base ++ "/" ++ p

/-- `camino::Utf8PathBuf::with_extension`: replace (not append) the
extension of the file name; a path without a file name is unchanged. -/
def withExtension (p ext : String) : String :=
  match fileNameOfPath p with
  | none => p
  | some n =>
      joinComps (startsWithChar '/' p)
        ((pathComps p).dropLast ++ [fileStemOfName n ++ "." ++ ext])

/-- Rust `str::parse::<usize>`: an optional leading `+` followed by at least
one ASCII digit (overflow, reachable only at astronomically long digit
strings, is not modelled). -/
def parseUsize (s : String) : Option Nat :=
  let t := if startsWithChar '+' s then strTail s else s
  if !strIsEmpty t && t.data.all Char.isDigit then
    some (t.data.foldl (fun a c => a * 10 + (c.toNat - 48)) 0)
  else none

/-- `str::rsplitn(4, '.')` collected to a vector: up to four dot-separated
pieces, right to left, the final piece keeping the whole remaining
prefix. -/
def rsplitn4 (s : String) : List String :=
  let ps := splitChar '.' s
  if ps.length ≤ 4 then ps.reverse
  else (ps.drop (ps.length - 3)).reverse ++ [String.intercalate "." (ps.take (ps.length - 3))]

/-! ### Quantity data model (`cooklang/src/quantity.rs`) -/

/-- `Value`: a single measured amount — number, inclusive numeric range, or
free text (numbers as `ℚ`). -/
inductive Value where
  | Number (n : ℚ)
  | Range (rstart rend : ℚ)
  | Text (t : String)
deriving DecidableEq

/-- `Value::is_text`. -/
def Value.is_text : Value → Bool
  | .Text _ => true
  | _ => false

/-- `ScalableValue`. -/
inductive ScalableValue where
  | Linear (v : Value)
  | ByServings (vs : List Value)
deriving DecidableEq

/-- `QuantityValue`. -/
inductive QuantityValue where
  | Fixed (v : Value)
  | Scalable (s : ScalableValue)
deriving DecidableEq

/-- `TextValueError`: carries the offending text value. -/
structure TextValueError where
  val : Value
deriving DecidableEq

/-- `Value::try_add` (the arm order mirrors the Rust `match`). -/
def Value.try_add : Value → Value → Except TextValueError Value
  | .Number a, .Number b => .ok (.Number (a + b))
  | .Number n, .Range s e => .ok (.Range (s + n) (e + n))
  | .Range s e, .Number n => .ok (.Range (s + n) (e + n))
  | .Range a b, .Range c d => .ok (.Range (a + c) (b + d))
  | .Text t, _ => .error ⟨.Text t⟩
  | _, .Text t => .error ⟨.Text t⟩

/-- Modelled from the spec: a resolved unit handle from the external
`Converter` registry (`crate::convert::Unit` is outside the sources). It
exposes a physical-quantity classification that is compared for
equality. -/
structure CUnit where
  name : String
  physical_quantity : String
deriving DecidableEq

/-- `UnitInfo`. -/
inductive UnitInfo where
  | Known (u : CUnit)
  | Unknown
deriving DecidableEq

/-- `QuantityUnit`: unit text plus the memoize-once resolution cell (the
`OnceCell` is modelled as an `Option`: `none` = not yet resolved). -/
structure QuantityUnit where
  text : String
  info : Option UnitInfo
deriving DecidableEq

/-- `Quantity`: a value plus an optional unit. -/
structure Quantity where
  value : QuantityValue
  unit : Option QuantityUnit
deriving DecidableEq

/-- Modelled from the spec: the external `Converter` contract —
`get_unit` looks a unit text up in the registry (`none` = not found);
`convertSameSystem` is `convert(_, ConvertTo::SameSystem)`, the converter's
best-fitting unit within the same unit system, `none` standing for a
conversion failure. -/
structure Converter where
  get_unit : String → Option CUnit
  convertSameSystem : Quantity → Option Quantity

/-- `UnitInfo::new`. -/
def UnitInfo.ofText (text : String) (c : Converter) : UnitInfo :=
  match c.get_unit text with
  | some u => .Known u
  | none => .Unknown

/-- `QuantityUnit::unit_or_parse`: the cached resolution when present,
otherwise one converter lookup. (The memoization write-back does not affect
the returned value and is not tracked by this model.) -/
def QuantityUnit.unit_or_parse (u : QuantityUnit) (c : Converter) : UnitInfo :=
  match u.info with
  | some i => i
  | none => UnitInfo.ofText u.text c

/-- The `either::Either<QuantityUnit, QuantityUnit>` payload of
`MissingUnit`. -/
inductive UnitSide where
  | left (u : QuantityUnit)
  | right (u : QuantityUnit)
deriving DecidableEq

/-- `IncompatibleUnits`. -/
inductive IncompatibleUnits where
  | MissingUnit (found : UnitSide)
  | DifferentPhysicalQuantities (a b : String)
  | UnknownDifferentUnits (a b : String)
deriving DecidableEq

/-- `Quantity::is_compatible`. -/
def Quantity.is_compatible (q rhs : Quantity) (c : Converter) :
    Except IncompatibleUnits (Option CUnit) :=
  match q.unit, rhs.unit with
  | none, none => .ok none
  | none, some u => .error (.MissingUnit (.right u))
  | some u, none => .error (.MissingUnit (.left u))
  | some a, some b =>
      match a.unit_or_parse c, b.unit_or_parse c with
      | .Known au, .Known bu =>
          if au.physical_quantity ≠ bu.physical_quantity then
            .error (.DifferentPhysicalQuantities au.physical_quantity bu.physical_quantity)
          else .ok (some au)
      | _, _ =>
          if a.text ≠ b.text then .error (.UnknownDifferentUnits a.text b.text)
          else .ok none

/-- `Quantity::unit_info`: only the already-cached resolution state. -/
def Quantity.unit_info (q : Quantity) : Option UnitInfo :=
  q.unit.bind fun u => u.info

/-- `Quantity::fit`: replace the quantity by the converter's same-system
best fit when the cached resolution is a known unit; `none` models the
`expect` panic on a converter failure; anything else is left untouched. -/
def Quantity.fit (q : Quantity) (c : Converter) : Option Quantity :=
  match q.unit_info with
  | some (.Known _) => c.convertSameSystem q
  | _ => some q

/-! ### Display (`impl Display` in `quantity.rs`) -/

/-- The 3-decimal display rounding from `Display for Value`. -/
def dispRound (n : ℚ) : ℚ := ((round (n * 1000) : ℤ) : ℚ) / 1000

/-- Number formatting for display. Rust prints the `f64` with `{}`; the
exact textual form of the abstracted rational is irrelevant to the claims
proved here. -/
def fmtNum (q : ℚ) : String :=
  if q.den = 1 then toString q.num else toString q.num ++ "/" ++ toString q.den

/-- `Display for Value`. -/
def displayValue : Value → String
  | .Number n => fmtNum (dispRound n)
  | .Range s e => fmtNum (dispRound s) ++ "-" ++ fmtNum (dispRound e)
  | .Text t => t

/-- `Display for ScalableValue`; `none` models the panic on an empty
`ByServings` list (the slice `v[..v.len() - 1]` and
`v.last().unwrap()`). -/
def displayScalableValue : ScalableValue → Option String
  | .Linear v => some (displayValue v)
  | .ByServings vs =>
      match vs.getLast? with
      | none => none
      | some lastv =>
          some (String.join ((vs.take (vs.length - 1)).map (fun v => displayValue v ++ "|"))
            ++ displayValue lastv)

/-- `Display for QuantityValue`. -/
def displayQuantityValue : QuantityValue → Option String
  | .Fixed v => some (displayValue v)
  | .Scalable s => displayScalableValue s

/-- A `|`-separated join: the shape the spec's round-trip property
describes. -/
def joinBar : List String → String
  | [] => ""
  | [x] => x
  | x :: xs => x ++ "|" ++ joinBar xs

/-- Modelled from the spec: the AST quantity node (`crate::ast` is outside
the sources) — a single value with an optional auto-scale marker, or a
list of per-serving values. -/
inductive AstQuantityValue where
  | Single (value : Value) (auto_scale : Option Unit)
  | Many (values : List Value)

/-- `QuantityValue::from_ast`. -/
def QuantityValue.from_ast : AstQuantityValue → QuantityValue
  | .Single v none => .Fixed v
  | .Single v (some _) => .Scalable (.Linear v)
  | .Many vs => .Scalable (.ByServings vs)

/-! ### Filesystem index (`cooklang-fs/src/lib.rs`) -/

/-- A directory entry as produced by the walker: its UTF-8 path and whether
it is a regular file (non-UTF-8 paths and IO errors of the walker are not
modelled; the walk sequence holds valid entries). -/
structure DirEntryM where
  path : String
  isFile : Bool
deriving DecidableEq

/-- `is_cooklang_file`: a regular file with the `cook` extension. -/
def is_cooklang_file (e : DirEntryM) : Bool :=
  e.isFile && extensionOfPath e.path == some "cook"

/-- `process_entry`: recipe files only, keyed by their stem
(`file_stem().unwrap_or(path)`). -/
def processEntry (e : DirEntryM) : Option (String × String) :=
  if is_cooklang_file e then some ((fileStemOfPath e.path).getD e.path, e.path) else none

/-- Whether a walker entry is the recipe file the walk loop is looking
for: a recipe file whose stem equals the requested name. -/
def entryMatches (name : String) (e : DirEntryM) : Bool :=
  match processEntry e with
  | some (en, _) => en == name
  | none => false

/-- The `Cache` of `FsIndex`: stem → discovered paths, plus the negative
set (the hash map / set are modelled as lists; only containment and the
per-stem path list order are observable). -/
structure Cache where
  recipes : List (String × List String)
  non_existent : List String
deriving DecidableEq

def lookupStem (m : List (String × List String)) (k : String) : Option (List String) :=
  (m.find? (fun e => e.1 == k)).map (fun e => e.2)

def insertStem (m : List (String × List String)) (k v : String) :
    List (String × List String) :=
  match m with
  | [] => [(k, [v])]
  | e :: rest => if e.1 = k then (e.1, e.2 ++ [v]) :: rest else e :: insertStem rest k v

/-- `Cache::get`: a path cached under the stem that equals the literal
input path. -/
def Cache.getPath (c : Cache) (name input : String) : Option String :=
  match lookupStem c.recipes name with
  | none => none
  | some v => v.find? (fun p => p == input)

/-- The list of paths cached under a stem (empty when the stem is not in
the map). -/
def listFor (c : Cache) (name : String) : List String :=
  (lookupStem c.recipes name).getD []

/-- `Cache::insert`. -/
def Cache.insertPath (c : Cache) (name path : String) : Cache :=
  ⟨insertStem c.recipes name path, c.non_existent⟩

/-- `Cache::mark_non_existent` (`HashSet::insert`). -/
def Cache.markNonExistent (c : Cache) (recipe : String) : Cache :=
  ⟨c.recipes,
   if c.non_existent.contains recipe then c.non_existent else c.non_existent ++ [recipe]⟩

/-- The mutable state of an `FsIndex`: base path, cache, and the shared
walk cursor (the not-yet-consumed suffix of the walk sequence). -/
structure FsIndexState where
  basePath : String
  cache : Cache
  walker : List DirEntryM
deriving DecidableEq

/-- The filesystem as seen by the direct-file probe (`Utf8Path::is_file`). -/
structure SimFs where
  isFile : String → Bool

/-- The outcome of `FsIndex::get` (`Walk`/`Canonicalize`/`NonUtf8` error
variants concern IO failures that are not modelled). -/
inductive GetResult where
  | ok (path : String)
  | notFound (name : String)
  | invalidName (name : String)
deriving DecidableEq

/-- Result, updated index state, and a count of filesystem touches (one per
`is_file` probe and one per walker entry pulled). -/
structure GetOut where
  res : GetResult
  state : FsIndexState
  probes : Nat
deriving DecidableEq

structure WalkOut where
  found : Option String
  cache : Cache
  walker : List DirEntryM
  steps : Nat
deriving DecidableEq

/-- The `while let Some(entry) = walker.next()` loop of `FsIndex::get`:
cache every recipe file pulled, stop on the first stem match. -/
def walkLoop (name : String) : Cache → List DirEntryM → WalkOut
  | cache, [] => ⟨none, cache, [], 0⟩
  | cache, e :: rest =>
      match processEntry e with
      | none =>
          let w := walkLoop name cache rest
          ⟨w.found, w.cache, w.walker, w.steps + 1⟩
      | some (entryName, path) =>
          let cache2 := cache.insertPath entryName path
          if entryName = name then ⟨some path, cache2, rest, 1⟩
          else
            let w := walkLoop name cache2 rest
            ⟨w.found, w.cache, w.walker, w.steps + 1⟩

/-- The direct-probe target: `base_path.join(recipe).with_extension("cook")`. -/
def probePath (base recipe : String) : String :=
  withExtension (joinPath base recipe) "cook"

/-- `FsIndex::get`, over an explicit filesystem and index state. -/
def FsIndex.get (fs : SimFs) (s : FsIndexState) (recipe : String) : GetOut :=
  match fileStemOfPath recipe with
  | none => ⟨.invalidName recipe, s, 0⟩
  | some name =>
    match s.cache.getPath name recipe with
    | some p => ⟨.ok p, s, 0⟩
    | none =>
      if s.cache.non_existent.contains recipe then ⟨.notFound recipe, s, 0⟩
      else
        let pp := probePath s.basePath recipe
        if fs.isFile pp then
          ⟨.ok pp, ⟨s.basePath, s.cache.insertPath name pp, s.walker⟩, 1⟩
        else
          let w := walkLoop name s.cache s.walker
          match w.found with
          | some p => ⟨.ok p, ⟨s.basePath, w.cache, w.walker⟩, 1 + w.steps⟩
          | none =>
              ⟨.notFound recipe,
               ⟨s.basePath, (w.cache.markNonExistent recipe), w.walker⟩, 1 + w.steps⟩

/-! ### Directory traversal orderings (`FsIndex::new` and `all_recipes`) -/

/-- A directory tree (symlinks are not modelled; `walkdir` file types are
files or directories). -/
inductive FsTree where
  | file (nm : String)
  | dir (nm : String) (children : List FsTree)

def FsTree.name : FsTree → String
  | .file n => n
  | .dir n _ => n

def FsTree.isFile : FsTree → Bool
  | .file _ => true
  | .dir _ _ => false

/-- Rust's byte-wise `Ord::cmp` on strings, via `strLeB`. -/
def cmpStr (a b : String) : Ordering :=
  if a = b then .eq else if strLeB a b then .lt else .gt

/-- The comparator installed by `FsIndex::new`: files first, same kind by
file name. -/
def cmpIndex (a b : FsTree) : Ordering :=
  match a.isFile, b.isFile with
  | true, false => .lt
  | false, true => .gt
  | _, _ => cmpStr a.name b.name

/-- The comparator of `all_recipes` (`sort_by_file_name`). -/
def cmpName (a b : FsTree) : Ordering :=
  cmpStr a.name b.name

def leOfCmp (cmp : FsTree → FsTree → Ordering) (a b : FsTree) : Prop :=
  cmp a b ≠ Ordering.gt

instance (cmp : FsTree → FsTree → Ordering) : DecidableRel (leOfCmp cmp) := fun a b =>
  inferInstanceAs (Decidable (cmp a b ≠ Ordering.gt))

/-- `walkdir` pre-order traversal with a per-directory (stable) comparator
sort and a depth bound: `fuel` is the remaining depth budget below this
entry (`max_depth` at the root). -/
def walkSub (cmp : FsTree → FsTree → Ordering) : Nat → String → FsTree → List DirEntryM
  | 0, path, t => [⟨path, t.isFile⟩]
  | fuel + 1, path, t =>
      ⟨path, t.isFile⟩ ::
        (match t with
         | .file _ => []
         | .dir _ cs =>
            (List.insertionSort (leOfCmp cmp) cs).flatMap
              (fun c => walkSub cmp fuel (path ++ "/" ++ c.name) c))

/-- The initial shared walker installed by `FsIndex::new`. -/
def fsIndexWalker (base : String) (t : FsTree) (maxDepth : Nat) : List DirEntryM :=
  walkSub cmpIndex maxDepth base t

/-- `FsIndex::new`: empty cache, walker at the start. -/
def FsIndex.new (base : String) (t : FsTree) (maxDepth : Nat) : FsIndexState :=
  ⟨base, ⟨[], []⟩, fsIndexWalker base t maxDepth⟩

/-- `all_recipes`: an independent walk sorted purely by file name,
restricted to directories and recipe files. -/
def all_recipes (base : String) (t : FsTree) (maxDepth : Nat) : List DirEntryM :=
  (walkSub cmpName maxDepth base t).filter
    (fun e => !e.isFile || is_cooklang_file e)

/-! ### Image association (`recipe_images`, `check_recipe_images`) -/

/-- `Image`: optional `(section_index, step_index)` plus path. -/
structure Image where
  indexes : Option (Nat × Nat)
  path : String
deriving DecidableEq

/-- `IMAGE_EXTENSIONS`. -/
def IMAGE_EXTENSIONS : List String := ["jpeg", "jpg", "png", "heic", "gif", "webp"]

/-- The name an image file must carry: the recipe file name up to its first
`.` (`split_once('.')`), empty when the file name has no dot. -/
def recipeNameOf (recipePath : String) : String :=
  let n := (fileNameOfPath recipePath).getD ""
  match splitChar '.' n with
  | p :: _ :: _ => p
  | _ => ""

/-- The image-filename decoder of `recipe_images`: the `match` over
`rsplitn(4, '.')`. (The source unwraps the image file name; walker entries
always have one, so the impossible case is mapped to `none`.) -/
def decodeImage (recipePath imagePath : String) : Option Image :=
  match fileNameOfPath imagePath with
  | none => none
  | some iname =>
      let rname := recipeNameOf recipePath
      match rsplitn4 iname with
      | [ext, stepIdx, secIdx, nm] =>
          if IMAGE_EXTENSIONS.contains ext && nm == rname
              && (parseUsize stepIdx).isSome && (parseUsize secIdx).isSome then
            some ⟨some ((parseUsize secIdx).getD 0, (parseUsize stepIdx).getD 0), imagePath⟩
          else none
      | [ext, stepIdx, nm] =>
          if IMAGE_EXTENSIONS.contains ext && nm == rname && (parseUsize stepIdx).isSome then
            some ⟨some (0, (parseUsize stepIdx).getD 0), imagePath⟩
          else none
      | [ext, nm] =>
          if IMAGE_EXTENSIONS.contains ext && nm == rname then some ⟨none, imagePath⟩
          else none
      | _ => none

/-- The derived `Ord` on `Image` as a boolean: `indexes` first (`None`
before `Some`, pairs lexicographic), ties broken by `path`. -/
def imageLeB (a b : Image) : Bool :=
  match a.indexes, b.indexes with
  | none, none => strLeB a.path b.path
  | none, some _ => true
  | some _, none => false
  | some x, some y =>
      decide (x.1 < y.1) ||
        (x.1 == y.1 && (decide (x.2 < y.2) || (x.2 == y.2 && strLeB a.path b.path)))

def imageLe (a b : Image) : Prop := imageLeB a b = true

instance : DecidableRel imageLe := fun a b =>
  inferInstanceAs (Decidable (imageLeB a b = true))

/-- `recipe_images` over the walk listing of the recipe's parent directory
(`entries`: the `walkdir` depth-1 output, in arbitrary order; the final
sort makes the result order-independent). -/
def recipe_images (recipePath : String) (entries : List DirEntryM) : List Image :=
  match parentPath recipePath with
  | none => []
  | some _ =>
      List.insertionSort imageLe
        ((entries.filter (fun e => e.isFile)).filterMap
          (fun e => decodeImage recipePath e.path))

/-- Modelled from the spec: the parsed recipe exposes an ordered list of
sections, each with an ordered list of steps (`cooklang::Recipe` is outside
the sources; only the lengths are consulted here). -/
structure SpecSection where
  steps : List Unit

/-- Modelled from the spec: see `SpecSection`. -/
structure SpecRecipe where
  sections : List SpecSection

/-- `RecipeImageError` (the image path stands for the `Utf8PathBuf`). -/
inductive RecipeImageError where
  | MissingSection (sectionIdx : Nat) (image : String)
  | MissingStep (sectionIdx stepIdx : Nat) (image : String)
deriving DecidableEq

/-- The per-image rule of `check_recipe_images`, as the spec words it: a
`MissingSection` when the section index is not a valid index into the
section list, else a `MissingStep` when the step index is not below the
section's step count; un-indexed images never err. -/
def imageErr (r : SpecRecipe) (img : Image) : Option RecipeImageError :=
  match img.indexes with
  | none => none
  | some (si, sti) =>
      match r.sections[si]? with
      | none => some (.MissingSection si img.path)
      | some sec =>
          if sti ≥ sec.steps.length then some (.MissingStep si sti img.path) else none

/-- The accumulation loop of `check_recipe_images`. -/
def collectImageErrors (r : SpecRecipe) : List Image → List RecipeImageError
  | [] => []
  | img :: rest =>
      match img.indexes with
      | none => collectImageErrors r rest
      | some (si, sti) =>
          match r.sections[si]? with
          | none => .MissingSection si img.path :: collectImageErrors r rest
          | some sec =>
              if sti ≥ sec.steps.length then
                .MissingStep si sti img.path :: collectImageErrors r rest
              else collectImageErrors r rest

/-- `check_recipe_images`. -/
def check_recipe_images (images : List Image) (r : SpecRecipe) :
    Except (List RecipeImageError) Unit :=
  let errors := collectImageErrors r images
  if errors.isEmpty then .ok () else .error errors

/-! ### Concrete inputs used by witness theorems -/

/-- A converter registry knowing `g` (mass) and `ml` (volume). -/
def convGM : Converter :=
  ⟨fun t => if t = "g" then some ⟨"g", "mass"⟩
            else if t = "ml" then some ⟨"ml", "volume"⟩ else none,
   fun _ => some ⟨.Fixed (.Number ((3 : ℚ) / 2)), some ⟨"kg", some (.Known ⟨"kg", "mass"⟩)⟩⟩⟩

def qUnitless : Quantity := ⟨.Fixed (.Number 1), none⟩

def qKnownG : Quantity := ⟨.Fixed (.Number 1500), some ⟨"g", some (.Known ⟨"g", "mass"⟩)⟩⟩

/-- The spec's example recipe: two sections, section 0 with three steps. -/
def exRecipe : SpecRecipe := ⟨[⟨[(), (), ()]⟩, ⟨[()]⟩]⟩

/-- The spec's example images: one bad step reference and one bad section
reference. -/
def exImages : List Image :=
  [⟨some (0, 5), "Soup.5.jpg"⟩, ⟨some (9, 0), "Soup.9.0.png"⟩]

/-- The spec's example sibling listing for recipe `Soup`. -/
def imgEntries : List DirEntryM :=
  [⟨"dir", false⟩, ⟨"dir/Soup.jpg", true⟩, ⟨"dir/Soup.2.png", true⟩,
   ⟨"dir/Soup.1.3.gif", true⟩, ⟨"dir/Other.jpg", true⟩, ⟨"dir/Soup.cook", true⟩]

/-- A filesystem on which no direct probe hits. -/
def fsNone : SimFs := ⟨fun _ => false⟩

/-- A filesystem holding exactly the file `b/d/x.cook`. -/
def fsProbe : SimFs := ⟨fun p => p == "b/d/x.cook"⟩

/-- A filesystem holding exactly the file `b/x.y.cook`. -/
def fsDotted : SimFs := ⟨fun p => p == "b/x.y.cook"⟩

/-- An index whose positive cache maps stem `x` to the literal path `x`. -/
def sCacheLit : FsIndexState := ⟨"b", ⟨[("x", ["x"])], []⟩, []⟩

/-- A fresh index over base `b` whose walker holds the base directory. -/
def sBaseOnly : FsIndexState := ⟨"b", ⟨[], []⟩, [⟨"b", false⟩]⟩

/-- A fresh empty-walker index over base `b`. -/
def sEmptyB : FsIndexState := ⟨"b", ⟨[], []⟩, []⟩

/-- A fresh index over base `b` with the recipe in a subdirectory. -/
def sDeep : FsIndexState :=
  ⟨"b", ⟨[], []⟩, [⟨"b", false⟩, ⟨"b/sub", false⟩, ⟨"b/sub/x.cook", true⟩]⟩

/-- The filesystem matching `sDeep`: exactly the file `b/sub/x.cook`. -/
def fsSub : SimFs := ⟨fun p => p == "b/sub/x.cook"⟩

/-- A directory `r` holding a subdirectory `a` and a recipe file
`z.cook`. -/
def tEx : FsTree := .dir "r" [.dir "a" [], .file "z.cook"]

/-! ### Helper lemmas -/

theorem foldl_append_shift (l : List String) (a : String) :
    l.foldl (· ++ ·) a = a ++ l.foldl (· ++ ·) "" := by
  induction l generalizing a with
  | nil => simp
  | cons b bs ih =>
      simp only [List.foldl_cons]
      rw [ih (a ++ b), ih ("" ++ b)]
      simp [String.append_assoc]

theorem stringJoin_cons (a : String) (l : List String) :
    String.join (a :: l) = a ++ String.join l := by
  simp only [String.join, List.foldl_cons]
  rw [foldl_append_shift l ("" ++ a)]
  simp

theorem displayByServings_eq_joinBar (vs : List Value) (h : vs ≠ []) :
    displayScalableValue (.ByServings vs) = some (joinBar (vs.map displayValue)) := by
  induction vs with
  | nil => exact absurd rfl h
  | cons v rest ih =>
      cases rest with
      | nil => simp [displayScalableValue, joinBar, String.join]
      | cons w ws =>
          have hne : w :: ws ≠ [] := by simp
          have ihw := ih hne
          rcases hL : (w :: ws).getLast? with _ | L
          · simp at hL
          · have hlen : (v :: w :: ws).length - 1 = (w :: ws).length := by simp
            have htake : (v :: w :: ws).take ((v :: w :: ws).length - 1)
                = v :: (w :: ws).take ((w :: ws).length - 1) := by
              rw [hlen]
              simp
            have hLcons : (v :: w :: ws).getLast? = some L := by
              rw [List.getLast?_cons_cons]; exact hL
            simp only [displayScalableValue, hL, hLcons, Option.some_inj] at ihw ⊢
            rw [htake]
            simp only [List.map_cons, stringJoin_cons]
            rw [String.append_assoc, ihw]
            have : (w :: ws).map displayValue = displayValue w :: ws.map displayValue := by
              simp
            rw [this]
            simp [joinBar, String.append_assoc]

/-! ### Claim theorems -/

/-- C3: `Value::try_add` — Number+Number is the Number of the sum;
Number+Range and Range+Number shift both endpoints of the range by the
scalar; Range+Range adds component-wise; any Text operand makes the call
fail with a `TextValueError` carrying the offending text value. -/
theorem value_try_add_spec :
    (∀ x y : ℚ, Value.try_add (.Number x) (.Number y) = .ok (.Number (x + y))) ∧
    (∀ n s e : ℚ, Value.try_add (.Number n) (.Range s e) = .ok (.Range (s + n) (e + n))) ∧
    (∀ n s e : ℚ, Value.try_add (.Range s e) (.Number n) = .ok (.Range (s + n) (e + n))) ∧
    (∀ a b c d : ℚ, Value.try_add (.Range a b) (.Range c d) = .ok (.Range (a + c) (b + d))) ∧
    (∀ a b : Value, a.is_text = true ∨ b.is_text = true →
      ∃ t, Value.try_add a b = .error ⟨.Text t⟩ ∧ (a = .Text t ∨ b = .Text t)) := by
  refine ⟨fun x y => rfl, fun n s e => rfl, fun n s e => rfl, fun a b c d => rfl, ?_⟩
  intro a b h
  cases a with
  | Text t => cases b <;> exact ⟨t, rfl, Or.inl rfl⟩
  | Number n =>
      cases b with
      | Text t => exact ⟨t, rfl, Or.inr rfl⟩
      | Number m => simp [Value.is_text] at h
      | Range s e => simp [Value.is_text] at h
  | Range s e =>
      cases b with
      | Text t => exact ⟨t, rfl, Or.inr rfl⟩
      | Number m => simp [Value.is_text] at h
      | Range s2 e2 => simp [Value.is_text] at h

/-- C3 witness: a Text operand at a concrete input. -/
theorem value_try_add_inst :
    Value.try_add (.Number 1) (.Text "two") = .error ⟨.Text "two"⟩ := by
  obtain ⟨t, h1, h2⟩ :=
    value_try_add_spec.2.2.2.2 (.Number 1) (.Text "two") (Or.inr rfl)
  rcases h2 with h | h
  · simp at h
  · cases h
    exact h1

/-- C4: `Quantity::is_compatible` — both unitless is compatible with no
common unit; exactly one unit errs with `MissingUnit` carrying the
unit-bearing side; two known units err with `DifferentPhysicalQuantities`
when their classifications differ and otherwise return the first operand's
resolved unit; with any unknown resolution, exact text equality decides
(`UnknownDifferentUnits` otherwise). -/
theorem is_compatible_spec :
    ∀ (q r : Quantity) (c : Converter),
    (q.unit = none → r.unit = none → Quantity.is_compatible q r c = .ok none) ∧
    (∀ u, q.unit = none → r.unit = some u →
      Quantity.is_compatible q r c = .error (.MissingUnit (.right u))) ∧
    (∀ u, q.unit = some u → r.unit = none →
      Quantity.is_compatible q r c = .error (.MissingUnit (.left u))) ∧
    (∀ a b ua ub, q.unit = some a → r.unit = some b →
      a.unit_or_parse c = .Known ua → b.unit_or_parse c = .Known ub →
      (ua.physical_quantity ≠ ub.physical_quantity →
        Quantity.is_compatible q r c =
          .error (.DifferentPhysicalQuantities ua.physical_quantity ub.physical_quantity)) ∧
      (ua.physical_quantity = ub.physical_quantity →
        Quantity.is_compatible q r c = .ok (some ua))) ∧
    (∀ a b, q.unit = some a → r.unit = some b →
      (a.unit_or_parse c = .Unknown ∨ b.unit_or_parse c = .Unknown) →
      (a.text = b.text → Quantity.is_compatible q r c = .ok none) ∧
      (a.text ≠ b.text →
        Quantity.is_compatible q r c = .error (.UnknownDifferentUnits a.text b.text))) := by
  intro q r c
  refine ⟨?_, ?_, ?_, ?_, ?_⟩
  · intro hq hr; simp [Quantity.is_compatible, hq, hr]
  · intro u hq hr; simp [Quantity.is_compatible, hq, hr]
  · intro u hq hr; simp [Quantity.is_compatible, hq, hr]
  · intro a b ua ub hq hr ha hb
    constructor
    · intro hne; simp [Quantity.is_compatible, hq, hr, ha, hb, hne]
    · intro heq; simp [Quantity.is_compatible, hq, hr, ha, hb, heq]
  · intro a b hq hr hun
    have hcase : Quantity.is_compatible q r c =
        (if a.text ≠ b.text then .error (.UnknownDifferentUnits a.text b.text)
         else .ok none) := by
      rcases ha2 : a.unit_or_parse c with ua | _
      · rcases hb2 : b.unit_or_parse c with ub | _
        · rcases hun with h | h
          · rw [ha2] at h; exact absurd h (by simp)
          · rw [hb2] at h; exact absurd h (by simp)
        · simp [Quantity.is_compatible, hq, hr, ha2, hb2]
      · rcases hb2 : b.unit_or_parse c with ub | _
        · simp [Quantity.is_compatible, hq, hr, ha2, hb2]
        · simp [Quantity.is_compatible, hq, hr, ha2, hb2]
    constructor
    · intro ht; rw [hcase]; simp [ht]
    · intro ht; rw [hcase]; simp [ht]

/-- C4 witness: concrete unitless/unitless, mixed, and
different-physical-quantity cases through the converter `convGM`. -/
theorem is_compatible_inst :
    Quantity.is_compatible ⟨.Fixed (.Number 1), none⟩ ⟨.Fixed (.Number 2), none⟩ convGM
      = .ok none ∧
    Quantity.is_compatible ⟨.Fixed (.Number 1), some ⟨"g", none⟩⟩
        ⟨.Fixed (.Number 2), some ⟨"ml", none⟩⟩ convGM =
      .error (.DifferentPhysicalQuantities "mass" "volume") := by
  constructor
  · exact (is_compatible_spec ⟨.Fixed (.Number 1), none⟩ ⟨.Fixed (.Number 2), none⟩
      convGM).1 rfl rfl
  · exact ((is_compatible_spec ⟨.Fixed (.Number 1), some ⟨"g", none⟩⟩
      ⟨.Fixed (.Number 2), some ⟨"ml", none⟩⟩ convGM).2.2.2.1
      ⟨"g", none⟩ ⟨"ml", none⟩ ⟨"g", "mass"⟩ ⟨"ml", "volume"⟩ rfl rfl
      rfl rfl).1 (by decide)

/-- C7: `Quantity::fit` — a unitless quantity, or one whose unit resolution
state is not a known unit, is returned completely unchanged; only a
known-resolved unit is replaced by the converter's same-system best fit. -/
theorem fit_frame_spec :
    ∀ (q : Quantity) (c : Converter),
    (q.unit = none → Quantity.fit q c = some q) ∧
    ((∀ cu, q.unit_info ≠ some (.Known cu)) → Quantity.fit q c = some q) ∧
    (∀ cu, q.unit_info = some (.Known cu) → Quantity.fit q c = c.convertSameSystem q) := by
  intro q c
  refine ⟨?_, ?_, ?_⟩
  · intro h
    have h2 : q.unit_info = none := by simp [Quantity.unit_info, h]
    simp [Quantity.fit, h2]
  · intro h
    rcases hq : q.unit_info with _ | i
    · simp [Quantity.fit, hq]
    · cases i with
      | Known u => exact absurd hq (h u)
      | Unknown => simp [Quantity.fit, hq]
  · intro cu h
    simp [Quantity.fit, h]

/-- C7 witness: a unitless quantity is unchanged; a known-resolved one is
handed to the converter. -/
theorem fit_frame_inst :
    Quantity.fit qUnitless convGM = some qUnitless ∧
    Quantity.fit qKnownG convGM = convGM.convertSameSystem qKnownG := by
  constructor
  · exact (fit_frame_spec qUnitless convGM).1 rfl
  · exact (fit_frame_spec qKnownG convGM).2.2 ⟨"g", "mass"⟩ rfl

/-- C9: an AST quantity node with an explicit per-serving list becomes
`Scalable (ByServings ...)` of the same values in order, and (for n ≥ 1
values) displays as the `|`-separated join of the individual displays, one
token per original value, in the original order. -/
theorem from_ast_roundtrip_spec :
    ∀ vs : List Value, vs ≠ [] →
    QuantityValue.from_ast (.Many vs) = .Scalable (.ByServings vs) ∧
    displayQuantityValue (QuantityValue.from_ast (.Many vs)) =
      some (joinBar (vs.map displayValue)) ∧
    (vs.map displayValue).length = vs.length := by
  intro vs h
  refine ⟨rfl, ?_, by simp⟩
  show displayScalableValue (.ByServings vs) = some (joinBar (vs.map displayValue))
  exact displayByServings_eq_joinBar vs h

/-- C9 witness: a two-tier serving list round-trips to two `|`-separated
tokens. -/
theorem from_ast_roundtrip_inst :
    QuantityValue.from_ast (.Many [.Number 1, .Number 2]) =
      .Scalable (.ByServings [.Number 1, .Number 2]) ∧
    displayQuantityValue (QuantityValue.from_ast (.Many [.Number 1, .Number 2])) =
      some (joinBar ([Value.Number 1, Value.Number 2].map displayValue)) := by
  have h := from_ast_roundtrip_spec [.Number 1, .Number 2] (by simp)
  exact ⟨h.1, h.2.1⟩

/-- C10: displaying `ByServings` succeeds for every non-empty tier list
(the slice and the last-element unwrap cannot fail there), and panics
(modelled as `none`) on the empty list — the non-emptiness invariant is
assumed, not enforced. -/
theorem by_servings_display_spec :
    (∀ vs : List Value, vs ≠ [] →
      (displayScalableValue (.ByServings vs)).isSome = true) ∧
    displayScalableValue (.ByServings []) = none := by
  constructor
  · intro vs h
    rw [displayByServings_eq_joinBar vs h]
    rfl
  · rfl

/-- C10 witness: a singleton tier list displays successfully. -/
theorem by_servings_display_inst :
    (displayScalableValue (.ByServings [Value.Number 1])).isSome = true :=
  by_servings_display_spec.1 [Value.Number 1] (by simp)

theorem collect_eq_filterMap (r : SpecRecipe) (images : List Image) :
    collectImageErrors r images = images.filterMap (imageErr r) := by
  induction images with
  | nil => rfl
  | cons img rest ih =>
      rcases him : img.indexes with _ | ⟨si, sti⟩
      · simp [collectImageErrors, imageErr, him, ih]
      · rcases hs : r.sections[si]? with _ | sec
        · simp [collectImageErrors, imageErr, him, hs, ih]
        · by_cases hst : sti ≥ sec.steps.length
          · simp [collectImageErrors, imageErr, him, hs, hst, ih]
          · simp [collectImageErrors, imageErr, him, hs, hst, ih]

/-- C8: `check_recipe_images` returns `Ok` exactly when no indexed image
violates the recipe structure; otherwise it returns the complete
violation list, in input order, without stopping at the first; the
per-image rule is `MissingSection` for an out-of-range section index, else
`MissingStep` for a step index not below the section's step count, and
un-indexed images never contribute. -/
theorem check_recipe_images_spec :
    ∀ (images : List Image) (r : SpecRecipe),
    collectImageErrors r images = images.filterMap (imageErr r) ∧
    (check_recipe_images images r = .ok () ↔ ∀ img ∈ images, imageErr r img = none) ∧
    (images.filterMap (imageErr r) ≠ [] →
      check_recipe_images images r = .error (images.filterMap (imageErr r))) ∧
    (∀ img, img.indexes = none → imageErr r img = none) := by
  intro images r
  have hc := collect_eq_filterMap r images
  refine ⟨hc, ?_, ?_, ?_⟩
  · unfold check_recipe_images
    rw [hc]
    rcases h : images.filterMap (imageErr r) with _ | ⟨e, es⟩
    · simp only [List.isEmpty_nil, if_true, true_iff]
      intro img hm
      exact List.filterMap_eq_nil_iff.mp h img hm
    · constructor
      · intro hcontr
        exact absurd hcontr (by simp)
      · intro hall
        have h2 : images.filterMap (imageErr r) = [] := List.filterMap_eq_nil_iff.mpr hall
        rw [h] at h2
        exact absurd h2 (by simp)
  · intro hne
    unfold check_recipe_images
    rw [hc]
    rcases h : images.filterMap (imageErr r) with _ | ⟨e, es⟩
    · exact absurd h hne
    · simp
  · intro img h
    simp [imageErr, h]

/-- C8 witness: the spec's example — a two-section recipe (three steps in
section 0), one image at `(0,5)` and one at `(9,0)` yield exactly a
`MissingStep` and a `MissingSection`, in input order. -/
theorem check_recipe_images_inst :
    check_recipe_images exImages exRecipe =
      .error [.MissingStep 0 5 "Soup.5.jpg", .MissingSection 9 "Soup.9.0.png"] := by
  have h := (check_recipe_images_spec exImages exRecipe).2.2.1 (by decide)
  exact h.trans (congrArg Except.error (by decide))

theorem charListLe_refl (l : List Char) : charListLe l l = true := by
  induction l with
  | nil => rfl
  | cons x xs ih => simp [charListLe, ih]

theorem charListLe_total (a b : List Char) :
    charListLe a b = true ∨ charListLe b a = true := by
  induction a generalizing b with
  | nil => exact Or.inl rfl
  | cons x xs ih =>
      cases b with
      | nil => exact Or.inr rfl
      | cons y ys =>
          by_cases h : x = y
          · subst h
            simpa [charListLe] using ih ys
          · rcases lt_or_gt_of_ne h with hlt | hgt
            · exact Or.inl (by simp [charListLe, h, hlt])
            · exact Or.inr (by simp [charListLe, Ne.symm h, hgt])

theorem charListLe_trans (a b c : List Char) (hab : charListLe a b = true)
    (hbc : charListLe b c = true) : charListLe a c = true := by
  induction a generalizing b c with
  | nil => rfl
  | cons x xs ih =>
      cases b with
      | nil => exact absurd hab (by simp [charListLe])
      | cons y ys =>
          cases c with
          | nil => exact absurd hbc (by simp [charListLe])
          | cons z zs =>
              by_cases hxy : x = y
              · subst hxy
                by_cases hyz : x = z
                · subst hyz
                  simp only [charListLe, if_pos rfl] at hab hbc ⊢
                  exact ih ys zs hab hbc
                · simp only [charListLe, if_pos rfl, if_neg hyz] at hab hbc ⊢
                  exact hbc
              · have hxy2 : x < y := by
                  have h2 := hab
                  simp only [charListLe, if_neg hxy, decide_eq_true_eq] at h2
                  exact h2
                by_cases hyz : y = z
                · subst hyz
                  simp only [charListLe, if_neg hxy, decide_eq_true_eq]
                  exact hxy2
                · have hyz2 : y < z := by
                    have h2 := hbc
                    simp only [charListLe, if_neg hyz, decide_eq_true_eq] at h2
                    exact h2
                  have hxz : x < z := lt_trans hxy2 hyz2
                  simp only [charListLe, if_neg (ne_of_lt hxz), decide_eq_true_eq]
                  exact hxz

theorem strLeB_total (a b : String) : strLeB a b = true ∨ strLeB b a = true :=
  charListLe_total a.data b.data

theorem strLeB_trans {a b c : String} (hab : strLeB a b = true)
    (hbc : strLeB b c = true) : strLeB a c = true :=
  charListLe_trans a.data b.data c.data hab hbc

theorem strLeB_refl (a : String) : strLeB a a = true :=
  charListLe_refl a.data

instance : IsTotal Image imageLe := by
  constructor
  intro a b
  rcases a with ⟨ia, pa⟩
  rcases b with ⟨ib, pb⟩
  rcases ia with _ | ⟨x1, x2⟩ <;> rcases ib with _ | ⟨y1, y2⟩ <;>
    simp only [imageLe, imageLeB, Bool.or_eq_true, Bool.and_eq_true, decide_eq_true_eq,
      beq_iff_eq, or_true, true_or]
  · exact strLeB_total pa pb
  · rcases Nat.lt_trichotomy x1 y1 with h | h | h
    · exact Or.inl (Or.inl h)
    · rcases Nat.lt_trichotomy x2 y2 with h2 | h2 | h2
      · exact Or.inl (Or.inr ⟨h, Or.inl h2⟩)
      · rcases strLeB_total pa pb with h3 | h3
        · exact Or.inl (Or.inr ⟨h, Or.inr ⟨h2, h3⟩⟩)
        · exact Or.inr (Or.inr ⟨h.symm, Or.inr ⟨h2.symm, h3⟩⟩)
      · exact Or.inr (Or.inr ⟨h.symm, Or.inl h2⟩)
    · exact Or.inr (Or.inl h)

instance : IsTrans Image imageLe := by
  constructor
  intro a b c hab hbc
  rcases a with ⟨ia, pa⟩
  rcases b with ⟨ib, pb⟩
  rcases c with ⟨ic, pc⟩
  rcases ia with _ | ⟨x1, x2⟩ <;> rcases ib with _ | ⟨y1, y2⟩ <;>
    rcases ic with _ | ⟨z1, z2⟩ <;>
    simp only [imageLe, imageLeB, Bool.or_eq_true, Bool.and_eq_true, decide_eq_true_eq,
      beq_iff_eq] at hab hbc ⊢
  · exact strLeB_trans hab hbc
  · exact Bool.noConfusion hbc
  · exact Bool.noConfusion hab
  · exact Bool.noConfusion hab
  · exact Bool.noConfusion hbc
  · rcases hab with h1 | ⟨h1, h1b⟩ <;> rcases hbc with h2 | ⟨h2, h2b⟩
    · exact Or.inl (lt_trans h1 h2)
    · exact Or.inl (h2 ▸ h1)
    · exact Or.inl (h1 ▸ h2)
    · refine Or.inr ⟨h1.trans h2, ?_⟩
      rcases h1b with g1 | ⟨g1, g1b⟩ <;> rcases h2b with g2 | ⟨g2, g2b⟩
      · exact Or.inl (lt_trans g1 g2)
      · exact Or.inl (g2 ▸ g1)
      · exact Or.inl (g1 ▸ g2)
      · exact Or.inr ⟨g1.trans g2, strLeB_trans g1b g2b⟩

/-- C5 (amended): `recipe_images` looks only at the non-directory sibling
entries, keeps exactly those whose filename decodes (`decodeImage`) against
the recipe's first-dot-truncated name, and returns them sorted by
`(indexes, path)` with `None` indexes first; on the spec's `Soup` example
it returns exactly the three expected images. -/
theorem recipe_images_spec :
    (∀ (p : String) (es : List DirEntryM), List.Sorted imageLe (recipe_images p es)) ∧
    (∀ (p : String) (es : List DirEntryM), parentPath p ≠ none →
      (recipe_images p es).Perm
        ((es.filter (fun e => e.isFile)).filterMap (fun e => decodeImage p e.path))) ∧
    recipe_images "dir/Soup.cook" imgEntries =
      [⟨none, "dir/Soup.jpg"⟩, ⟨some (0, 2), "dir/Soup.2.png"⟩,
       ⟨some (1, 3), "dir/Soup.1.3.gif"⟩] := by
  refine ⟨?_, ?_, by decide⟩
  · intro p es
    unfold recipe_images
    rcases h : parentPath p with _ | d
    · simp
    · exact List.sorted_insertionSort _ _
  · intro p es h
    unfold recipe_images
    rcases hp : parentPath p with _ | d
    · exact absurd hp h
    · exact List.perm_insertionSort _ _

/-- C5 witness: the permutation clause at the spec's `Soup` example. -/
theorem recipe_images_inst :
    (recipe_images "dir/Soup.cook" imgEntries).Perm
      ((imgEntries.filter (fun e => e.isFile)).filterMap
        (fun e => decodeImage "dir/Soup.cook" e.path)) :=
  recipe_images_spec.2.1 "dir/Soup.cook" imgEntries (by decide)

/-- C5 counterexample: for the recipe file `d/Soup.v2.cook`, whose stem is
`Soup.v2`, the sibling `d/Soup.v2.jpg` — exactly stem `.` recognized
extension, so included by the claim as stated — is excluded by the code:
the decoder compares against the file name truncated at its first dot
(`Soup`), not against the stem, and `v2` fails the numeric parse. -/
theorem recipe_images_cex :
    recipe_images "d/Soup.v2.cook" [⟨"d/Soup.v2.jpg", true⟩] = [] ∧
    fileStemOfPath "d/Soup.v2.cook" = some "Soup.v2" ∧
    IMAGE_EXTENSIONS.contains "jpg" = true ∧
    ("Soup.v2" ++ "." ++ "jpg" : String) = "Soup.v2.jpg" ∧
    fileNameOfPath "d/Soup.v2.jpg" = some "Soup.v2.jpg" := by
  refine ⟨by decide, by decide, by decide, by decide, by decide⟩

/-! Cache and walk-loop lemmas for the `FsIndex` claims. -/

theorem lookupStem_cons_eq (e : String × List String) (rest : List (String × List String))
    (k : String) (h : e.1 = k) : lookupStem (e :: rest) k = some e.2 := by
  unfold lookupStem
  rw [List.find?_cons_of_pos _ (by simp [h])]
  rfl

theorem lookupStem_cons_ne (e : String × List String) (rest : List (String × List String))
    (k : String) (h : e.1 ≠ k) : lookupStem (e :: rest) k = lookupStem rest k := by
  unfold lookupStem
  rw [List.find?_cons_of_neg _ (by simp [h])]

theorem lookupStem_insertStem_self (m : List (String × List String)) (k v : String) :
    lookupStem (insertStem m k v) k = some ((lookupStem m k).getD [] ++ [v]) := by
  induction m with
  | nil =>
      rw [show insertStem [] k v = [(k, [v])] from rfl, lookupStem_cons_eq _ _ _ rfl]
      rfl
  | cons e rest ih =>
      by_cases h : e.1 = k
      · rw [show insertStem (e :: rest) k v = (e.1, e.2 ++ [v]) :: rest from by
            simp [insertStem, h]]
        rw [lookupStem_cons_eq (e.1, e.2 ++ [v]) rest k h, lookupStem_cons_eq e rest k h]
        rfl
      · rw [show insertStem (e :: rest) k v = e :: insertStem rest k v from by
            simp [insertStem, h]]
        rw [lookupStem_cons_ne e (insertStem rest k v) k h, lookupStem_cons_ne e rest k h,
          ih]

theorem lookupStem_insertStem_ne (m : List (String × List String)) (k k2 v : String)
    (h : k2 ≠ k) : lookupStem (insertStem m k v) k2 = lookupStem m k2 := by
  induction m with
  | nil =>
      rw [show insertStem [] k v = [(k, [v])] from rfl,
        lookupStem_cons_ne _ _ _ (by simpa using Ne.symm h)]
  | cons e rest ih =>
      by_cases h2 : e.1 = k
      · have h3 : e.1 ≠ k2 := by rw [h2]; exact Ne.symm h
        rw [show insertStem (e :: rest) k v = (e.1, e.2 ++ [v]) :: rest from by
            simp [insertStem, h2]]
        rw [lookupStem_cons_ne (e.1, e.2 ++ [v]) rest k2 h3, lookupStem_cons_ne e rest k2 h3]
      · by_cases h3 : e.1 = k2
        · rw [show insertStem (e :: rest) k v = e :: insertStem rest k v from by
              simp [insertStem, h2]]
          rw [lookupStem_cons_eq e (insertStem rest k v) k2 h3,
            lookupStem_cons_eq e rest k2 h3]
        · rw [show insertStem (e :: rest) k v = e :: insertStem rest k v from by
              simp [insertStem, h2]]
          rw [lookupStem_cons_ne e (insertStem rest k v) k2 h3,
            lookupStem_cons_ne e rest k2 h3, ih]

theorem listFor_insertPath_self (c : Cache) (n v : String) :
    listFor (c.insertPath n v) n = listFor c n ++ [v] := by
  unfold listFor Cache.insertPath
  simp [lookupStem_insertStem_self]

theorem listFor_insertPath_ne (c : Cache) (n n2 v : String) (h : n2 ≠ n) :
    listFor (c.insertPath n v) n2 = listFor c n2 := by
  unfold listFor Cache.insertPath
  simp [lookupStem_insertStem_ne _ _ _ _ h]

theorem getPath_eq_none_iff (c : Cache) (n q : String) :
    c.getPath n q = none ↔ q ∉ listFor c n := by
  unfold Cache.getPath listFor
  rcases h : lookupStem c.recipes n with _ | v
  · simp
  · simp only [Option.getD_some, List.find?_eq_none, beq_iff_eq]
    constructor
    · intro hall hq
      exact hall q hq rfl
    · intro hq p hp hpq
      exact hq (hpq ▸ hp)

theorem getPath_some_eq (c : Cache) (n q p : String) (h : c.getPath n q = some p) :
    p = q := by
  unfold Cache.getPath at h
  rcases hl : lookupStem c.recipes n with _ | v
  · rw [hl] at h; exact Option.noConfusion h
  · rw [hl] at h
    have h2 := List.find?_some h
    simpa using h2

theorem getPath_mem (c : Cache) (n q : String) (h : q ∈ listFor c n) :
    c.getPath n q = some q := by
  rcases h2 : c.getPath n q with _ | p
  · exact absurd ((getPath_eq_none_iff c n q).mp h2) (by simp [h])
  · rw [getPath_some_eq c n q p h2]

theorem markNonExistent_recipes (c : Cache) (x : String) :
    (c.markNonExistent x).recipes = c.recipes := rfl

theorem markNonExistent_contains (c : Cache) (x : String) :
    (c.markNonExistent x).non_existent.contains x = true := by
  unfold Cache.markNonExistent
  by_cases h : c.non_existent.contains x = true
  · simp only [if_pos h]
    exact h
  · simp only [if_neg h]
    simp

theorem insertPath_non_existent (c : Cache) (n v : String) :
    (c.insertPath n v).non_existent = c.non_existent := rfl

theorem walkLoop_cons_skip (name : String) (c : Cache) (e : DirEntryM)
    (rest : List DirEntryM) (hp : processEntry e = none) :
    walkLoop name c (e :: rest) =
      ⟨(walkLoop name c rest).found, (walkLoop name c rest).cache,
       (walkLoop name c rest).walker, (walkLoop name c rest).steps + 1⟩ := by
  rw [walkLoop]
  simp [hp]

theorem walkLoop_cons_hit (name : String) (c : Cache) (e : DirEntryM)
    (rest : List DirEntryM) (pa : String) (hp : processEntry e = some (name, pa)) :
    walkLoop name c (e :: rest) = ⟨some pa, c.insertPath name pa, rest, 1⟩ := by
  rw [walkLoop]
  simp [hp]

theorem walkLoop_cons_miss (name : String) (c : Cache) (e : DirEntryM)
    (rest : List DirEntryM) (en pa : String) (hp : processEntry e = some (en, pa))
    (hne : en ≠ name) :
    walkLoop name c (e :: rest) =
      ⟨(walkLoop name (c.insertPath en pa) rest).found,
       (walkLoop name (c.insertPath en pa) rest).cache,
       (walkLoop name (c.insertPath en pa) rest).walker,
       (walkLoop name (c.insertPath en pa) rest).steps + 1⟩ := by
  rw [walkLoop]
  simp [hp, hne]

theorem walkLoop_non_existent (name : String) (c : Cache) (es : List DirEntryM) :
    (walkLoop name c es).cache.non_existent = c.non_existent := by
  induction es generalizing c with
  | nil => rfl
  | cons e rest ih =>
      rcases hp : processEntry e with _ | pr
      · rw [walkLoop_cons_skip name c e rest hp]
        exact ih c
      · rcases pr with ⟨en, pa⟩
        by_cases h : en = name
        · subst h
          rw [walkLoop_cons_hit en c e rest pa hp]
          rfl
        · rw [walkLoop_cons_miss name c e rest en pa hp h]
          exact ih _

theorem walkLoop_found_mem (name : String) (c : Cache) (es : List DirEntryM) :
    ∀ p, (walkLoop name c es).found = some p →
      p ∈ listFor (walkLoop name c es).cache name := by
  induction es generalizing c with
  | nil => intro p h; exact Option.noConfusion h
  | cons e rest ih =>
      intro p h
      rcases hp : processEntry e with _ | pr
      · rw [walkLoop_cons_skip name c e rest hp] at h ⊢
        exact ih c p h
      · rcases pr with ⟨en, pa⟩
        by_cases h2 : en = name
        · subst h2
          rw [walkLoop_cons_hit en c e rest pa hp] at h ⊢
          cases h
          rw [listFor_insertPath_self]
          simp
        · rw [walkLoop_cons_miss name c e rest en pa hp h2] at h ⊢
          exact ih _ p h

theorem walkLoop_none_listFor (name : String) (c : Cache) (es : List DirEntryM)
    (h : (walkLoop name c es).found = none) :
    listFor (walkLoop name c es).cache name = listFor c name := by
  induction es generalizing c with
  | nil => rfl
  | cons e rest ih =>
      rcases hp : processEntry e with _ | pr
      · rw [walkLoop_cons_skip name c e rest hp] at h ⊢
        exact ih c h
      · rcases pr with ⟨en, pa⟩
        by_cases h2 : en = name
        · subst h2
          rw [walkLoop_cons_hit en c e rest pa hp] at h
          exact Option.noConfusion h
        · rw [walkLoop_cons_miss name c e rest en pa hp h2] at h ⊢
          rw [ih _ h, listFor_insertPath_ne _ _ _ _ (Ne.symm h2)]

theorem processEntry_path (e : DirEntryM) (en pa : String)
    (h : processEntry e = some (en, pa)) : pa = e.path := by
  unfold processEntry at h
  by_cases h2 : is_cooklang_file e = true
  · rw [if_pos h2] at h
    cases h
    rfl
  · rw [if_neg h2] at h
    exact Option.noConfusion h

theorem walkLoop_found_eq_find (name : String) (c : Cache) (es : List DirEntryM) :
    (walkLoop name c es).found = (es.find? (entryMatches name)).map (fun e => e.path) := by
  induction es generalizing c with
  | nil => rfl
  | cons e rest ih =>
      rcases hp : processEntry e with _ | pr
      · have hm : entryMatches name e = false := by simp [entryMatches, hp]
        rw [walkLoop_cons_skip name c e rest hp,
          List.find?_cons_of_neg _ (by simp [hm])]
        exact ih c
      · rcases pr with ⟨en, pa⟩
        by_cases h2 : en = name
        · subst h2
          have hm : entryMatches en e = true := by simp [entryMatches, hp]
          rw [walkLoop_cons_hit en c e rest pa hp,
            List.find?_cons_of_pos _ (by simp [hm])]
          simp [processEntry_path e en pa hp]
        · have hm : entryMatches name e = false := by simp [entryMatches, hp, h2]
          rw [walkLoop_cons_miss name c e rest en pa hp h2,
            List.find?_cons_of_neg _ (by simp [hm])]
          exact ih _

/-! Branch lemmas for `FsIndex::get`. -/

theorem get_invalid (fs : SimFs) (s : FsIndexState) (x : String)
    (hstem : fileStemOfPath x = none) :
    FsIndex.get fs s x = ⟨.invalidName x, s, 0⟩ := by
  simp [FsIndex.get, hstem]

theorem get_cache_hit (fs : SimFs) (s : FsIndexState) (x name q : String)
    (hstem : fileStemOfPath x = some name)
    (hq : s.cache.getPath name x = some q) :
    FsIndex.get fs s x = ⟨.ok q, s, 0⟩ := by
  simp [FsIndex.get, hstem, hq]

theorem get_neg_hit (fs : SimFs) (s : FsIndexState) (x name : String)
    (hstem : fileStemOfPath x = some name)
    (hc : s.cache.getPath name x = none)
    (hne : s.cache.non_existent.contains x = true) :
    FsIndex.get fs s x = ⟨.notFound x, s, 0⟩ := by
  have hmem : x ∈ s.cache.non_existent := by simpa using hne
  simp [FsIndex.get, hstem, hc, hmem]

theorem get_probe_hit (fs : SimFs) (s : FsIndexState) (x name : String)
    (hstem : fileStemOfPath x = some name)
    (hc : s.cache.getPath name x = none)
    (hne : s.cache.non_existent.contains x = false)
    (hp : fs.isFile (probePath s.basePath x) = true) :
    FsIndex.get fs s x =
      ⟨.ok (probePath s.basePath x),
       ⟨s.basePath, s.cache.insertPath name (probePath s.basePath x), s.walker⟩, 1⟩ := by
  have hmem : x ∉ s.cache.non_existent := by simpa using hne
  simp [FsIndex.get, hstem, hc, hmem, hp]

theorem get_walk_found (fs : SimFs) (s : FsIndexState) (x name p : String)
    (hstem : fileStemOfPath x = some name)
    (hc : s.cache.getPath name x = none)
    (hne : s.cache.non_existent.contains x = false)
    (hp : fs.isFile (probePath s.basePath x) = false)
    (hw : (walkLoop name s.cache s.walker).found = some p) :
    FsIndex.get fs s x =
      ⟨.ok p,
       ⟨s.basePath, (walkLoop name s.cache s.walker).cache,
        (walkLoop name s.cache s.walker).walker⟩,
       1 + (walkLoop name s.cache s.walker).steps⟩ := by
  have hmem : x ∉ s.cache.non_existent := by simpa using hne
  simp [FsIndex.get, hstem, hc, hmem, hp, hw]

theorem get_walk_exhausted (fs : SimFs) (s : FsIndexState) (x name : String)
    (hstem : fileStemOfPath x = some name)
    (hc : s.cache.getPath name x = none)
    (hne : s.cache.non_existent.contains x = false)
    (hp : fs.isFile (probePath s.basePath x) = false)
    (hw : (walkLoop name s.cache s.walker).found = none) :
    FsIndex.get fs s x =
      ⟨.notFound x,
       ⟨s.basePath, (walkLoop name s.cache s.walker).cache.markNonExistent x,
        (walkLoop name s.cache s.walker).walker⟩,
       1 + (walkLoop name s.cache s.walker).steps⟩ := by
  have hmem : x ∉ s.cache.non_existent := by simpa using hne
  simp [FsIndex.get, hstem, hc, hmem, hp, hw]

/-- C1 (amended): after a successful `get(x)`: when the returned path
equals the literal input, a second `get(x)` is a pure cache hit — identical
path, identical state (cursor included), zero filesystem accesses; when the
direct-probe file `base/x` with extension `cook` exists, a second `get(x)`
returns the identical path without advancing the cursor and with at most
one filesystem probe; after a `get(x)` that failed with `NotFound`, a
second `get(x)` fails `NotFound` immediately — no filesystem access, no
traversal, state unchanged. (Unqualified, the original claim is refuted by
`fsIndex_second_get_cex`.) -/
theorem fsIndex_second_get_spec :
    ∀ (fs : SimFs) (s : FsIndexState) (x : String),
    (∀ p, (FsIndex.get fs s x).res = .ok p → p = x →
      FsIndex.get fs (FsIndex.get fs s x).state x =
        ⟨.ok p, (FsIndex.get fs s x).state, 0⟩) ∧
    (∀ p, (FsIndex.get fs s x).res = .ok p →
        fs.isFile (probePath s.basePath x) = true →
      (FsIndex.get fs (FsIndex.get fs s x).state x).res = .ok p ∧
      (FsIndex.get fs (FsIndex.get fs s x).state x).state.walker =
        (FsIndex.get fs s x).state.walker ∧
      (FsIndex.get fs (FsIndex.get fs s x).state x).probes ≤ 1) ∧
    ((FsIndex.get fs s x).res = .notFound x →
      FsIndex.get fs (FsIndex.get fs s x).state x =
        ⟨.notFound x, (FsIndex.get fs s x).state, 0⟩) := by
  intro fs s x
  refine ⟨?_, ?_, ?_⟩
  · -- the returned path is the literal input: pure cache hit
    intro p hres hpx
    subst hpx
    rcases hstem : fileStemOfPath p with _ | name
    · simp [get_invalid fs s p hstem] at hres
    · rcases hcache : s.cache.getPath name p with _ | q
      · cases hne : s.cache.non_existent.contains p
        · cases hprobe : fs.isFile (probePath s.basePath p)
          · rcases hw : (walkLoop name s.cache s.walker).found with _ | p0
            · simp [get_walk_exhausted fs s p name hstem hcache hne hprobe hw] at hres
            · rw [get_walk_found fs s p name p0 hstem hcache hne hprobe hw] at hres ⊢
              have hp0 : p0 = p := by simpa using hres
              rw [hp0] at hw
              dsimp only
              have hmem := walkLoop_found_mem name s.cache s.walker p hw
              have hq := getPath_mem _ name p hmem
              exact get_cache_hit fs
                ⟨s.basePath, (walkLoop name s.cache s.walker).cache,
                 (walkLoop name s.cache s.walker).walker⟩ p name p hstem hq
          · rw [get_probe_hit fs s p name hstem hcache hne hprobe] at hres ⊢
            have hpp : probePath s.basePath p = p := by simpa using hres
            dsimp only
            have hmem : p ∈ listFor
                (s.cache.insertPath name (probePath s.basePath p)) name := by
              rw [listFor_insertPath_self, hpp]
              simp
            have hq := getPath_mem _ name p hmem
            exact get_cache_hit fs
              ⟨s.basePath, s.cache.insertPath name (probePath s.basePath p), s.walker⟩
              p name p hstem hq
        · simp [get_neg_hit fs s p name hstem hcache hne] at hres
      · rw [get_cache_hit fs s p name q hstem hcache] at hres ⊢
        have hq : q = p := by simpa using hres
        dsimp only
        subst hq
        exact get_cache_hit fs s q name q hstem hcache
  · -- the probed file exists: identical path, cursor untouched, ≤ 1 probe
    intro p hres hfile
    rcases hstem : fileStemOfPath x with _ | name
    · simp [get_invalid fs s x hstem] at hres
    · rcases hcache : s.cache.getPath name x with _ | q
      · cases hne : s.cache.non_existent.contains x
        · cases hprobe : fs.isFile (probePath s.basePath x)
          · rw [hprobe] at hfile
            exact Bool.noConfusion hfile
          · rw [get_probe_hit fs s x name hstem hcache hne hprobe] at hres ⊢
            have hp2 : probePath s.basePath x = p := by simpa using hres
            dsimp only
            by_cases hpx : probePath s.basePath x = x
            · have hmem : x ∈ listFor
                  (s.cache.insertPath name (probePath s.basePath x)) name := by
                rw [listFor_insertPath_self]
                simp [hpx]
              have hq := getPath_mem _ name x hmem
              have h2 := get_cache_hit fs
                ⟨s.basePath, s.cache.insertPath name (probePath s.basePath x), s.walker⟩
                x name x hstem hq
              rw [h2]
              refine ⟨?_, rfl, by simp⟩
              rw [← hp2, hpx]
            · have hnone : (s.cache.insertPath name
                  (probePath s.basePath x)).getPath name x = none := by
                rw [getPath_eq_none_iff, listFor_insertPath_self]
                intro hmem
                rcases List.mem_append.mp hmem with h3 | h3
                · exact (getPath_eq_none_iff _ _ _).mp hcache h3
                · simp at h3
                  exact hpx h3.symm
              have hne2 : (s.cache.insertPath name
                  (probePath s.basePath x)).non_existent.contains x = false := by
                rw [insertPath_non_existent]
                exact hne
              have h2 := get_probe_hit fs
                ⟨s.basePath, s.cache.insertPath name (probePath s.basePath x), s.walker⟩
                x name hstem hnone hne2 hprobe
              rw [h2]
              exact ⟨by simp [hp2], rfl, le_refl 1⟩
        · simp [get_neg_hit fs s x name hstem hcache hne] at hres
      · rw [get_cache_hit fs s x name q hstem hcache] at hres ⊢
        have hq : q = p := by simpa using hres
        dsimp only
        subst hq
        rw [get_cache_hit fs s x name q hstem hcache]
        exact ⟨rfl, rfl, by simp⟩
  · -- a failed lookup: the second one fails immediately, state unchanged
    intro hres
    rcases hstem : fileStemOfPath x with _ | name
    · simp [get_invalid fs s x hstem] at hres
    · rcases hcache : s.cache.getPath name x with _ | q
      · cases hne : s.cache.non_existent.contains x
        · cases hprobe : fs.isFile (probePath s.basePath x)
          · rcases hw : (walkLoop name s.cache s.walker).found with _ | p0
            · rw [get_walk_exhausted fs s x name hstem hcache hne hprobe hw]
              dsimp only
              have hlf : listFor ((walkLoop name s.cache
                  s.walker).cache.markNonExistent x) name =
                  listFor (walkLoop name s.cache s.walker).cache name := rfl
              have hc2 : ((walkLoop name s.cache
                  s.walker).cache.markNonExistent x).getPath name x = none := by
                rw [getPath_eq_none_iff, hlf,
                  walkLoop_none_listFor name s.cache s.walker hw]
                exact (getPath_eq_none_iff _ _ _).mp hcache
              exact get_neg_hit fs
                ⟨s.basePath, (walkLoop name s.cache s.walker).cache.markNonExistent x,
                 (walkLoop name s.cache s.walker).walker⟩
                x name hstem hc2 (markNonExistent_contains _ x)
            · simp [get_walk_found fs s x name p0 hstem hcache hne hprobe hw] at hres
          · simp [get_probe_hit fs s x name hstem hcache hne hprobe] at hres
        · rw [get_neg_hit fs s x name hstem hcache hne]
          dsimp only
          exact get_neg_hit fs s x name hstem hcache hne
      · simp [get_cache_hit fs s x name q hstem hcache] at hres

/-- C1 witness: the three amended clauses at concrete indexes — a
literal-path cache hit, a direct-probe hit (with a relative sub-path
input), and a negative-cache hit. -/
theorem fsIndex_second_get_inst :
    FsIndex.get fsNone (FsIndex.get fsNone sCacheLit "x").state "x" =
      ⟨.ok "x", (FsIndex.get fsNone sCacheLit "x").state, 0⟩ ∧
    ((FsIndex.get fsProbe (FsIndex.get fsProbe sBaseOnly "d/x").state "d/x").res =
        .ok "b/d/x.cook" ∧
      (FsIndex.get fsProbe (FsIndex.get fsProbe sBaseOnly "d/x").state "d/x").state.walker =
        (FsIndex.get fsProbe sBaseOnly "d/x").state.walker ∧
      (FsIndex.get fsProbe (FsIndex.get fsProbe sBaseOnly "d/x").state "d/x").probes ≤ 1) ∧
    FsIndex.get fsNone (FsIndex.get fsNone sBaseOnly "zz").state "zz" =
      ⟨.notFound "zz", (FsIndex.get fsNone sBaseOnly "zz").state, 0⟩ := by
  refine ⟨?_, ?_, ?_⟩
  · exact (fsIndex_second_get_spec fsNone sCacheLit "x").1 "x" (by decide) rfl
  · exact (fsIndex_second_get_spec fsProbe sBaseOnly "d/x").2.1 "b/d/x.cook"
      (by decide) (by decide)
  · exact (fsIndex_second_get_spec fsNone sBaseOnly "zz").2.2 (by decide)

/-- C1 counterexample: over base `b` holding only `b/sub/x.cook`, the first
`get("x")` succeeds through the walker, but an immediately following second
`get("x")` fails with `NotFound` — the cached path `b/sub/x.cook` does not
equal the literal input `x`, so the cache misses, the probe `b/x.cook`
misses, and the already-exhausted cursor yields nothing. -/
theorem fsIndex_second_get_cex :
    (FsIndex.get fsSub sDeep "x").res = .ok "b/sub/x.cook" ∧
    (FsIndex.get fsSub (FsIndex.get fsSub sDeep "x").state "x").res = .notFound "x" :=
  ⟨by decide, by decide⟩

/-- C6 (amended): an input that misses the positive cache and the negative
cache is probed at the single path `base_path/<input>` with the `cook`
extension *set* (replacing any existing extension); when that file exists
the path is cached under the input's stem and returned with one
filesystem access and the walk cursor untouched — also for relative
sub-path inputs. -/
theorem direct_probe_spec :
    ∀ (fs : SimFs) (s : FsIndexState) (x name : String),
    fileStemOfPath x = some name →
    s.cache.getPath name x = none →
    s.cache.non_existent.contains x = false →
    fs.isFile (probePath s.basePath x) = true →
    probePath s.basePath x = withExtension (joinPath s.basePath x) "cook" ∧
    FsIndex.get fs s x =
      ⟨.ok (probePath s.basePath x),
       ⟨s.basePath, s.cache.insertPath name (probePath s.basePath x), s.walker⟩, 1⟩ := by
  intro fs s x name h1 h2 h3 h4
  exact ⟨rfl, get_probe_hit fs s x name h1 h2 h3 h4⟩

/-- C6 witness: the sub-path input `d/x` over base `b` is served by the
probe of `b/d/x.cook`, cached under stem `x`, with the walker untouched. -/
theorem direct_probe_inst :
    FsIndex.get fsProbe sBaseOnly "d/x" =
      ⟨.ok "b/d/x.cook", ⟨"b", ⟨[("x", ["b/d/x.cook"])], []⟩, [⟨"b", false⟩]⟩, 1⟩ := by
  have h := (direct_probe_spec fsProbe sBaseOnly "d/x" "x"
    (by decide) (by decide) (by decide) (by decide)).2
  exact h.trans (by decide)

/-- C6 counterexample: the claim says the probed path is the input with
`.cook` *appended*. For the input `x.y`, the code probes `b/x.cook`
(extension replaced), not `b/x.y.cook`; on a filesystem holding exactly
`b/x.y.cook` — the path the claim predicts to be probed and found — the
lookup fails with `NotFound`. -/
theorem direct_probe_cex :
    probePath "b" "x.y" = "b/x.cook" ∧
    ("b" ++ "/" ++ "x.y" ++ ".cook" : String) = "b/x.y.cook" ∧
    fsDotted.isFile "b/x.y.cook" = true ∧
    (FsIndex.get fsDotted sEmptyB "x.y").res = .notFound "x.y" := by
  refine ⟨by decide, by decide, by decide, by decide⟩

/-! Ordering lemmas for the traversal comparators. -/

theorem cmpStr_ne_gt (a b : String) :
    (cmpStr a b ≠ Ordering.gt) ↔ strLeB a b = true := by
  unfold cmpStr
  by_cases h : a = b
  · subst h
    simp [strLeB_refl]
  · by_cases h2 : strLeB a b = true
    · simp [h, h2]
    · simp [h, h2]

theorem leOfCmp_cmpIndex_iff (a b : FsTree) :
    leOfCmp cmpIndex a b ↔
      (a.isFile = true ∧ b.isFile = false) ∨
      (a.isFile = b.isFile ∧ strLeB a.name b.name = true) := by
  unfold leOfCmp cmpIndex
  cases ha : a.isFile <;> cases hb : b.isFile
  · simpa using cmpStr_ne_gt a.name b.name
  · simp
  · simp
  · simpa using cmpStr_ne_gt a.name b.name

theorem leOfCmp_cmpName_iff (a b : FsTree) :
    leOfCmp cmpName a b ↔ strLeB a.name b.name = true := by
  unfold leOfCmp cmpName
  exact cmpStr_ne_gt _ _

instance : IsTotal FsTree (leOfCmp cmpIndex) := by
  constructor
  intro a b
  rw [leOfCmp_cmpIndex_iff, leOfCmp_cmpIndex_iff]
  cases ha : a.isFile <;> cases hb : b.isFile <;> simp
  · exact strLeB_total _ _
  · exact strLeB_total _ _

instance : IsTrans FsTree (leOfCmp cmpIndex) := by
  constructor
  intro a b c hab hbc
  rw [leOfCmp_cmpIndex_iff] at hab hbc ⊢
  cases ha : a.isFile <;> cases hb : b.isFile <;> cases hc : c.isFile <;>
    simp [ha, hb, hc] at hab hbc ⊢
  · exact strLeB_trans hab hbc
  · exact strLeB_trans hab hbc

instance : IsTotal FsTree (leOfCmp cmpName) := by
  constructor
  intro a b
  rw [leOfCmp_cmpName_iff, leOfCmp_cmpName_iff]
  exact strLeB_total _ _

instance : IsTrans FsTree (leOfCmp cmpName) := by
  constructor
  intro a b c hab hbc
  rw [leOfCmp_cmpName_iff] at hab hbc ⊢
  exact strLeB_trans hab hbc

/-- C2 (amended): the `FsIndex` shared walk cursor orders each directory's
entries files-before-subdirectories and, within the same kind,
lexicographically by file name; the bulk listing `all_recipes` instead
orders each directory's entries purely lexicographically by file name,
files and directories interleaved (so the two traversals do not share one
order, refuted at `walk_ordering_cex`); and the walk stage of a lookup
returns the first recipe file with a matching stem in the cursor's order,
making duplicate-stem resolution deterministic. -/
theorem walk_ordering_spec :
    (∀ a b : FsTree, leOfCmp cmpIndex a b ↔
      (a.isFile = true ∧ b.isFile = false) ∨
      (a.isFile = b.isFile ∧ strLeB a.name b.name = true)) ∧
    (∀ a b : FsTree, leOfCmp cmpName a b ↔ strLeB a.name b.name = true) ∧
    (∀ cs : List FsTree,
      List.Sorted (leOfCmp cmpIndex) (List.insertionSort (leOfCmp cmpIndex) cs)) ∧
    (∀ cs : List FsTree,
      List.Sorted (leOfCmp cmpName) (List.insertionSort (leOfCmp cmpName) cs)) ∧
    (∀ (cmp : FsTree → FsTree → Ordering) (fuel : Nat) (path nm : String)
        (cs : List FsTree),
      walkSub cmp (fuel + 1) path (.dir nm cs) =
        ⟨path, false⟩ :: (List.insertionSort (leOfCmp cmp) cs).flatMap
          (fun c => walkSub cmp fuel (path ++ "/" ++ c.name) c)) ∧
    (∀ (name : String) (c : Cache) (es : List DirEntryM),
      (walkLoop name c es).found =
        (es.find? (entryMatches name)).map (fun e => e.path)) := by
  refine ⟨leOfCmp_cmpIndex_iff, leOfCmp_cmpName_iff, ?_, ?_, ?_,
    walkLoop_found_eq_find⟩
  · intro cs
    exact List.sorted_insertionSort _ _
  · intro cs
    exact List.sorted_insertionSort _ _
  · intro cmp fuel path nm cs
    rfl

/-- C2 counterexample: over the tree `r` with subdirectory `a` and recipe
file `z.cook`, the index walker yields `z.cook` before `a` (files first),
while `all_recipes` yields `a` before `z.cook` (pure name order) — the two
traversals do not produce directory entries in the same order, and
`all_recipes` does not put files before subdirectories. -/
theorem walk_ordering_cex :
    (fsIndexWalker "r" tEx 2).map (fun e => e.path) = ["r", "r/z.cook", "r/a"] ∧
    (all_recipes "r" tEx 2).map (fun e => e.path) = ["r", "r/a", "r/z.cook"] ∧
    (["r", "r/a", "r/z.cook"] : List String) ≠ ["r", "r/z.cook", "r/a"] := by
  refine ⟨by decide, by decide, by decide⟩

end Cooklang
